import Mathlib

/-!
# tenderly-trace: trace walker, trace results, node client

A shallow embedding of `ethereum/parity/types.go` (the nested VM trace, `Walk`,
`ProcessTrace`, `Traces`) and of `ethereum/client/client.go` (`Dial`, the read
operations, the poll worker of `subscribeViaPoll`), followed by the properties
proved about them.

Conventions of the embedding.

* A Go pointer that may be nil is an `Option`; a slice is a `List`; a byte is a
  `Nat`. The trace is decoded from JSON, so it is a tree: no two steps share a
  record, and updating a record in place is the same as rebuilding it.
* An entry of the output of `Walk` is the step record itself. Its field `ValueSub`
  is a reference that `Walk` does not redirect; it is kept as the nested trace the
  step arrived with, and the nested steps as `Walk` leaves them are read from their
  own entries of the output. The steps of a trace are records (no nil entry).
* Indexing is partial: a function that indexes returns an `Option`, and `none`
  stands for the run-time fault of an index out of range.
* An `error` value is the text it prints with `%s`.
* `ethereum.OpCode(b).String()` lives outside the two source files; it is the
  parameter `opString` of everything that decodes a mnemonic.
-/

namespace TenderlyTrace

/-! ## Data model (`ethereum/parity/types.go`) -/

/-- Modelled from the spec: `vm.Stack` is declared in `ethereum/core/vm`, which is
not among the sources; the spec calls it a stack snapshot, kept here as the list of
its words. `*vm.Stack` is `Option Stack`. -/
abbrev Stack := List String

/-- Modelled from the spec: `vm.Memory` is declared in `ethereum/core/vm`, which is
not among the sources; the spec calls it a memory snapshot, kept here as its bytes. -/
abbrev Memory := List Nat

/-- The Go struct `Mem`. -/
structure Mem where
  Data : List Nat
  Off : Nat
deriving DecidableEq, Repr

/-- The Go struct `Ex`. -/
structure Ex where
  Mem : Mem
  Push : List String
  Used : Nat
deriving DecidableEq, Repr

/-- The fields of the Go struct `VmState` other than `ValueSub`, under their Go
names. They are grouped in a record of their own so that `VmState` can carry its
nested trace. -/
structure StepFields where
  ValuePc : Nat
  ValueOp : String
  ValueEx : Ex
  ValueGas : Nat
  ValueGasCost : Int
  ValueDepth : Int
  ValueError : List Nat
  ValueStack : Option Stack
  ValueMemory : Option Memory
  ValueStorage : Option (List (String × String))
  Terminating : Bool
deriving DecidableEq, Repr

mutual
/-- The Go struct `VmState`: one execution step, with its optional nested trace. -/
inductive VmState where
  | mk (fields : StepFields) (ValueSub : Option VmTrace)
/-- The Go struct `VmTrace`: the steps of one segment and the segment's bytecode. -/
inductive VmTrace where
  | mk (Logs : List VmState) (Code : List Nat)
end

/-- The scalar fields of a step. -/
def VmState.fields : VmState → StepFields
  | .mk f _ => f

/-- The field `ValueSub` of a step. -/
def VmState.ValueSub : VmState → Option VmTrace
  | .mk _ sub => sub

/-- The field `Logs` of a trace. -/
def VmTrace.Logs : VmTrace → List VmState
  | .mk logs _ => logs

/-- The field `Code` of a trace. -/
def VmTrace.Code : VmTrace → List Nat
  | .mk _ code => code

/-- The Go struct `Log`. -/
structure Log where
  ValueAddress : String
  ValueBlockHash : String
  ValueBlockNumber : String
  ValueData : String
  ValueLogIndex : String
  ValueRemoved : Bool
  ValueTopics : List String
  ValueTransactionHash : String
  ValueTransactionIndex : String
  ValueTransactionLogIndex : String
  ValueType : String
deriving DecidableEq, Repr

/-- The Go struct `Action`; hashes and addresses are kept as their hex text. -/
structure Action where
  CallType : String
  Hash : Option String
  ParentHash : Option String
  TransactionHash : Option String
  From : String
  To : String
  Input : List Nat
  Gas : Option Nat
  Value : Option Nat
deriving DecidableEq, Repr

/-- The Go struct `Result`. -/
structure Result where
  GasUsed : Option Nat
  Output : List Nat
deriving DecidableEq, Repr

/-- The Go struct `Trace`: one call-trace record. -/
structure Trace where
  ValueAction : Action
  ValueResult : Result
  ValueLogs : List Log
  ValueSubtraces : Int
  ValueError : String
  ValueTraceAddress : List Int
  ValueType : String
deriving DecidableEq, Repr

/-- The Go struct `TraceResult`. -/
structure TraceResult where
  VmTrace : Option VmTrace
  CallTrace : List Trace

/-! ## The trace walker (`Walk`, `ProcessTrace`, `Traces`) -/

/-- The assignment `s.Terminating = true`. -/
def setTerminating : VmState → VmState
  | .mk f sub => .mk { f with Terminating := true } sub

/-- The assignment `s.ValueOp = op`, on the scalar fields of a step. -/
def setOp (f : StepFields) (op : String) : StepFields :=
  { f with ValueOp := op }

/-- The statement `traces[len(traces)-1].Terminating = true` (lines 339 and 345):
`none` when `traces` is empty, the index being out of range. -/
def markLast (traces : List VmState) : Option (List VmState) :=
  match traces.get? (traces.length - 1) with
  | none => none
  | some s => some (traces.set (traces.length - 1) (setTerminating s))

/-- Line 309: `ethereum.OpCode(vmt.Code[vmt.Logs[0].ValuePc]).String()`, `none` when
`vmt.Logs` is empty or the pc is outside the bytecode. -/
def firstOp (opString : Nat → String) (code : List Nat) (logs : List VmState) : Option String :=
  match logs with
  | [] => none
  | s :: _ => (code.get? s.fields.ValuePc).map opString

/-- Lines 311-317, for step `i` with fields `f`: when `i > 0` (`prev` is step `i-1`
as it stands then) the stack reference is overwritten by the one of step `i-1`, and
then cleared if the mnemonic of step `i-1` is `"CALL"`. -/
def linkStack (prev : Option StepFields) (f : StepFields) : StepFields :=
  match prev with
  | none => f
  | some p =>
    let f1 := { f with ValueStack := p.ValueStack }
    if p.ValueOp = "CALL" then { f1 with ValueStack := none } else f1

mutual
/-- The Go function `Walk` (lines 306-348); its parameter `tx` is never read and is
left out. `none` stands for an index out of range. -/
def Walk (opString : Nat → String) : VmTrace → Option (List VmState)
  | .mk logs code =>
    match firstOp opString code logs with
    | none => none
    | some op0 =>
      match walkLoop opString code none op0 logs with
      | none => none
      | some traces => markLast traces
/-- The loop of `Walk` from iteration `i` on, the argument being `vmt.Logs[i:]`.
`op` is the mnemonic already written into `vmt.Logs[i].ValueOp` (by line 309 for
`i = 0`, by the lookahead of iteration `i-1` otherwise) and `prev` is
`vmt.Logs[i-1]` as it stands (`none` for `i = 0`). The result is what the loop
appends to `traces`. -/
def walkLoop (opString : Nat → String) (code : List Nat) (prev : Option StepFields) (op : String) :
    List VmState → Option (List VmState)
  | [] => some []
  | .mk f sub :: rest =>
    let cur := linkStack prev (setOp f op)
    match rest with
    | [] =>
      match walkSub opString sub with
      | none => none
      | some subTraces => some (.mk cur sub :: subTraces)
    | next :: _ =>
      match code.get? next.fields.ValuePc with
      | none => none
      | some b =>
        match walkSub opString sub with
        | none => none
        | some subTraces =>
          match walkLoop opString code (some cur) (opString b) rest with
          | none => none
          | some more => some (.mk cur sub :: subTraces ++ more)
/-- Lines 337-342: nothing for a step without nested trace; otherwise the walk of
the nested trace with its last entry marked. -/
def walkSub (opString : Nat → String) : Option VmTrace → Option (List VmState)
  | none => some []
  | some t =>
    match Walk opString t with
    | none => none
    | some subTraces => markLast subTraces
end

/-- The Go method `ProcessTrace` (lines 298-304): the result after the call, `none`
when `Walk` faults. -/
def ProcessTrace (opString : Nat → String) (tr : TraceResult) : Option TraceResult :=
  match tr.VmTrace with
  | none => some tr
  | some vmt =>
    match Walk opString vmt with
    | none => none
    | some traces => some { tr with VmTrace := some (.mk traces vmt.Code) }

/-- The Go method `Traces` (lines 285-296). -/
def Traces (tr : TraceResult) : List Trace :=
  match tr.VmTrace with
  | none => []
  | some _ => tr.CallTrace.map (fun v => v)

/-! ## Notions used to state the properties of the walker -/

mutual
/-- Whether every segment reachable in the trace tree has at least one step and
every step's pc is smaller than the length of its own segment's bytecode. -/
def validTrace : VmTrace → Bool
  | .mk logs code => !logs.isEmpty && validSteps code logs
/-- The steps of a segment with bytecode `code`: each pc inside `code`, each nested
trace valid. -/
def validSteps (code : List Nat) : List VmState → Bool
  | [] => true
  | .mk f sub :: rest => decide (f.ValuePc < code.length) && validSub sub && validSteps code rest
/-- An absent nested trace, or a valid one. -/
def validSub : Option VmTrace → Bool
  | none => true
  | some t => validTrace t
end

mutual
/-- The total number of steps in the whole trace tree: the segment's own steps plus,
recursively, the steps of every nested sub-trace. -/
def totalSteps : VmTrace → Nat
  | .mk logs _ => stepsOfList logs
/-- The steps of a list of steps, nested ones included. -/
def stepsOfList : List VmState → Nat
  | [] => 0
  | .mk _ sub :: rest => 1 + stepsOfSub sub + stepsOfList rest
/-- The steps of an optional nested trace. -/
def stepsOfSub : Option VmTrace → Nat
  | none => 0
  | some t => totalSteps t
end

/-- The output index of step `k` of a segment, counted from the segment's first
entry: the steps before `k`, their nested steps included. -/
def stepPos (logs : List VmState) (k : Nat) : Nat :=
  stepsOfList (logs.take k)

/-- The part of a step that `Walk` never writes: the step with its mnemonic, stack
reference and terminal flag blanked. Two records with the same `payload` are the
same step up to what `Walk` writes. -/
def VmState.payload : VmState → VmState
  | .mk f sub => .mk { f with ValueOp := "", ValueStack := none, Terminating := false } sub

/-- A step of the trace tree as it arrives, with the bytecode of its own segment and
whether it is the last step of that segment. -/
structure StepInfo where
  step : VmState
  code : List Nat
  lastOfSegment : Bool

mutual
/-- The pre-order flattening of the trace tree: each step is followed by the
flattening of its nested trace, and then by the next step of its segment. -/
def stepInfos : VmTrace → List StepInfo
  | .mk logs code => infosOfList code logs
/-- The pre-order flattening of the steps of a segment with bytecode `code`. -/
def infosOfList (code : List Nat) : List VmState → List StepInfo
  | [] => []
  | .mk f sub :: rest => ⟨.mk f sub, code, rest.isEmpty⟩ :: (infosOfSub sub ++ infosOfList code rest)
/-- The pre-order flattening of an optional nested trace. -/
def infosOfSub : Option VmTrace → List StepInfo
  | none => []
  | some t => stepInfos t
end

mutual
/-- Every segment of the trace tree, each with the output index of its first step,
`off` being the index of the first step of the tree. -/
def segments (off : Nat) : VmTrace → List (Nat × VmTrace)
  | .mk logs code => (off, .mk logs code) :: segmentsOfList off logs
/-- The segments nested under the steps of a list that starts at index `off`. -/
def segmentsOfList (off : Nat) : List VmState → List (Nat × VmTrace)
  | [] => []
  | .mk _ sub :: rest =>
    segmentsOfSub (off + 1) sub ++ segmentsOfList (off + 1 + stepsOfSub sub) rest
/-- The segments of an optional nested trace that starts at index `off`. -/
def segmentsOfSub (off : Nat) : Option VmTrace → List (Nat × VmTrace)
  | none => []
  | some t => segments off t
end

/-- The scalar fields of a step of a segment with bytecode `code` once `Walk` has
decoded its mnemonic and linked its stack to the step before. -/
def walkedFields (opString : Nat → String) (code : List Nat) (prev : Option StepFields)
    (f : StepFields) : StepFields :=
  linkStack prev (setOp f (opString (code.getD f.ValuePc 0)))

/-- An output entry: the fields `cur`, the terminal flag raised when `last` holds. -/
def walkedEntry (cur : StepFields) (sub : Option VmTrace) (last : Bool) : VmState :=
  .mk { cur with Terminating := cur.Terminating || last } sub

mutual
/-- The closed form of the output of `Walk` on a valid trace (see `Walk_eq_walked`). -/
def walked (opString : Nat → String) : VmTrace → List VmState
  | .mk logs code => walkedList opString code none logs
/-- The closed form of the entries of a segment from one step on, `prev` being the
step before as `Walk` leaves its mnemonic and stack. -/
def walkedList (opString : Nat → String) (code : List Nat) (prev : Option StepFields) :
    List VmState → List VmState
  | [] => []
  | .mk f sub :: rest =>
    walkedEntry (walkedFields opString code prev f) sub (rest.isEmpty && sub.isNone) ::
      (walkedSub opString sub ++
        walkedList opString code (some (walkedFields opString code prev f)) rest)
/-- The closed form of the entries of an optional nested trace. -/
def walkedSub (opString : Nat → String) : Option VmTrace → List VmState
  | none => []
  | some t => walked opString t
end

/-! ## The node client (`ethereum/client/client.go`) -/

/-- The two schemas `Dial` chooses between: `&geth.DefaultSchema` and
`&parity.DefaultSchema`. -/
inductive Schema where
  | geth
  | parity
deriving DecidableEq, Repr

/-- The Go struct `Client`, over the type `ρ` of the transport connection
`*jsonrpc2.Client` (the field `openChannels` is never written). -/
structure Client (ρ : Type) where
  rpc : ρ
  schema : Schema

/-- What the verb `%s` prints for an `error`: its text, and `%!s(<nil>)` for nil. -/
def errorText : Option String → String
  | none => "%!s(<nil>)"
  | some e => e

/-- The Go function `Dial` (lines 27-54). `DiscoverAndDial` is the transport's dial,
`CallRequest` the outcome of the version-info probe on the connection: `none` for a
nil error, `some e` for the error `e`. -/
def Dial {ρ : Type} (DiscoverAndDial : String → Except String ρ)
    (CallRequest : ρ → Option String) (target : String) : Except String (Client ρ) :=
  match DiscoverAndDial target with
  | .error err => .error ("dial ethereum rpc: " ++ err)
  | .ok rpcClient =>
    let err := CallRequest rpcClient
    let nodeType := if err = none then "parity" else "geth"
    if nodeType = "geth" then .ok ⟨rpcClient, .geth⟩
    else if nodeType = "parity" then .ok ⟨rpcClient, .parity⟩
    else .error ("unsupported node type: " ++ errorText err)

/-! The read operations. Each makes one `c.rpc.CallRequest(resp, req)`; its outcome
is the argument `CallRequest` (`none` for a nil error) and `resp` is the holder as
the transport filled it. The result is the pair the Go method returns. -/

/-- The Go method `CurrentBlockNumber` (lines 80-89). -/
def CurrentBlockNumber (CallRequest : Option String) (resp : Int) : Int × Option String :=
  match CallRequest with
  | some err => (0, some ("current block number: " ++ err))
  | none => (resp, none)

/-- The Go method `GetBlock` (lines 91-99). -/
def GetBlock {α : Type} (CallRequest : Option String) (resp : α) (number : Int) :
    Option α × Option String :=
  match CallRequest with
  | some err => (none, some ("get block by number [" ++ toString number ++ "]: " ++ err))
  | none => (some resp, none)

/-- The Go method `GetBlockByHash` (lines 101-109). -/
def GetBlockByHash {α : Type} (CallRequest : Option String) (resp : α) (hash : String) :
    Option α × Option String :=
  match CallRequest with
  | some err => (none, some ("get block by hash [" ++ hash ++ "]: " ++ err))
  | none => (some resp, none)

/-- The Go method `GetTransaction` (lines 111-119). -/
def GetTransaction {α : Type} (CallRequest : Option String) (resp : α) (hash : String) :
    Option α × Option String :=
  match CallRequest with
  | some err => (none, some ("get transaction [" ++ hash ++ "]: " ++ err))
  | none => (some resp, none)

/-- The Go method `GetTransactionReceipt` (lines 121-129). -/
def GetTransactionReceipt {α : Type} (CallRequest : Option String) (resp : α) (hash : String) :
    Option α × Option String :=
  match CallRequest with
  | some err => (none, some ("get transaction receipt [" ++ hash ++ "]: " ++ err))
  | none => (some resp, none)

/-- The Go method `GetTransactionVMTrace` (lines 141-151), `txHash` being
`tx.Hash().String()`; `none` stands for a fault of `ProcessTrace`. -/
def GetTransactionVMTrace (opString : Nat → String) (CallRequest : Option String)
    (resp : TraceResult) (txHash : String) : Option (Option TraceResult × Option String) :=
  match CallRequest with
  | some err => some (none, some ("get transaction trace [" ++ txHash ++ "]: " ++ err))
  | none =>
    match ProcessTrace opString resp with
    | none => none
    | some processed => some (some processed, none)

/-- The Go method `GetTransactionCallTrace` (lines 153-161). -/
def GetTransactionCallTrace (CallRequest : Option String) (resp : TraceResult) (hash : String) :
    Option TraceResult × Option String :=
  match CallRequest with
  | some err => (none, some ("get transaction pretty trace [" ++ hash ++ "]: " ++ err))
  | none => (some resp, none)

/-- The Go method `GetBalance` (lines 163-171). -/
def GetBalance (CallRequest : Option String) (resp : Int) (address : String) :
    Option Int × Option String :=
  match CallRequest with
  | some err => (none, some ("get code [" ++ address ++ "]: " ++ err))
  | none => (some resp, none)

/-- The Go method `GetCode` (lines 173-181). -/
def GetCode (CallRequest : Option String) (resp : String) (address : String) :
    Option String × Option String :=
  match CallRequest with
  | some err => (none, some ("get code [" ++ address ++ "]: " ++ err))
  | none => (some resp, none)

/-- The Go method `GetStorageAt` (lines 183-191). -/
def GetStorageAt (CallRequest : Option String) (resp : String) (hash : String) :
    Option String × Option String :=
  match CallRequest with
  | some err => (none, some ("get transaction receipt [" ++ hash ++ "]: " ++ err))
  | none => (some resp, none)

/-! The poll worker of `subscribeViaPoll` (lines 211-241), as a function from the
successive outcomes of `CurrentBlockNumber` to the values sent on `outCh`. Heights
are `int64`; `lastBlock++` runs only below `blockNumber`, so it never wraps. -/

/-- The inner loop `for lastBlock < blockNumber { outCh <- blockNumber; lastBlock++ }`
(lines 230-234), run for at most `n` rounds: the values sent and the final
`lastBlock`. -/
def sendLoop (blockNumber : Int) : Nat → Int → List Int × Int
  | 0, lastBlock => ([], lastBlock)
  | n + 1, lastBlock =>
    if lastBlock < blockNumber then
      let r := sendLoop blockNumber n (lastBlock + 1)
      (blockNumber :: r.1, r.2)
    else ([], lastBlock)

/-- One round of the worker's outer loop (lines 218-236): the values sent and the
new `lastBlock`. The inner loop gets `blockNumber - lastBlock` rounds, which is all
it can use (`sendLoop_exit`). -/
def pollRound (lastBlock : Int) (reading : Except String Int) : List Int × Int :=
  match reading with
  | .error _ => ([], lastBlock)
  | .ok blockNumber =>
    if lastBlock = 0 then ([], blockNumber)
    else sendLoop blockNumber (blockNumber - lastBlock).toNat lastBlock

/-- The worker from a given `lastBlock` on, over the outcomes of its polls. -/
def pollWorker (lastBlock : Int) : List (Except String Int) → List Int
  | [] => []
  | reading :: rest =>
    (pollRound lastBlock reading).1 ++ pollWorker (pollRound lastBlock reading).2 rest

/-- The worker started by `subscribeViaPoll`: `var lastBlock int64` starts at 0. -/
def subscribeViaPoll (readings : List (Except String Int)) : List Int :=
  pollWorker 0 readings

/-! ## Examples -/

/-- A decoder for the examples, an instance of the parameter `opString`: the EVM
mnemonics of the bytes `0xf1`, `0xf4` and of every other byte as `STOP`. -/
def exampleOpString (b : Nat) : String :=
  if b = 0xf1 then "CALL" else if b = 0xf4 then "DELEGATECALL" else "STOP"

/-- The fields of a step as decoded from JSON, with the given pc and stack. -/
def exampleFields (pc : Nat) (stack : Option Stack) : StepFields :=
  { ValuePc := pc, ValueOp := "", ValueEx := ⟨⟨[], 0⟩, [], 0⟩, ValueGas := 0, ValueGasCost := 0,
    ValueDepth := 0, ValueError := [], ValueStack := stack, ValueMemory := none,
    ValueStorage := none, Terminating := false }

/-- A nested trace: a segment of two steps with bytecode `f4 f1`, the first with a
stack, the second (and last) carrying a nested segment of one step. -/
def exampleTrace : VmTrace :=
  .mk [.mk (exampleFields 0 (some ["x"])) none,
       .mk (exampleFields 1 none) (some (.mk [.mk (exampleFields 0 none) none] [0x00]))]
    [0xf4, 0xf1]

/-- A call-trace record for the examples. -/
def exampleCall : Trace :=
  { ValueAction := ⟨"call", none, none, none, "0x01", "0x02", [], none, none⟩,
    ValueResult := ⟨none, []⟩, ValueLogs := [], ValueSubtraces := 0, ValueError := "",
    ValueTraceAddress := [], ValueType := "call" }

/-! ## Theorems -/

/-- Induction over the trace tree: a property holds of every trace if it holds of a
segment whenever it holds of the nested traces of its steps. -/
theorem VmTrace.induct (P : VmTrace → Prop)
    (h : ∀ logs code, (∀ s ∈ logs, ∀ t, s.ValueSub = some t → P t) → P (.mk logs code)) :
    ∀ t, P t := by
  intro t
  refine @VmTrace.rec (fun s => ∀ t, s.ValueSub = some t → P t) P
    (fun o => ∀ t, o = some t → P t)
    (fun l => ∀ s ∈ l, ∀ t, s.ValueSub = some t → P t) ?_ ?_ ?_ ?_ ?_ ?_ t
  · intro f sub ih t ht; exact ih t ht
  · intro logs code ih; exact h logs code ih
  · intro t ht; cases ht
  · intro v ih t ht; cases ht; exact ih
  · intro s hs; cases hs
  · intro hd tl ih1 ih2 s hs
    rcases List.mem_cons.1 hs with rfl | hs
    · exact ih1
    · exact ih2 s hs

theorem markLast_nil : markLast [] = none := rfl

theorem markLast_concat (a : List VmState) (x : VmState) :
    markLast (a ++ [x]) = some (a ++ [setTerminating x]) := by
  simp [markLast]

theorem markLast_append (a b : List VmState) (hb : b ≠ []) :
    markLast (a ++ b) = (markLast b).map (a ++ ·) := by
  obtain ⟨c, x, rfl⟩ : ∃ c x, b = c ++ [x] := ⟨b.dropLast, b.getLast hb, (List.dropLast_append_getLast hb).symm⟩
  rw [← List.append_assoc, markLast_concat, markLast_concat]
  simp

theorem setTerminating_idem (x : VmState) : setTerminating (setTerminating x) = setTerminating x := by
  cases x; rfl

theorem markLast_idem {u w : List VmState} (h : markLast u = some w) : markLast w = some w := by
  rcases List.eq_nil_or_concat u with rfl | ⟨c, x, rfl⟩
  · simp [markLast_nil] at h
  · rw [List.concat_eq_append, markLast_concat] at h
    cases h
    rw [markLast_concat, setTerminating_idem]

theorem markLast_ne_nil {u w : List VmState} (h : markLast u = some w) : u ≠ [] := by
  rintro rfl; simp [markLast_nil] at h

theorem walkLoop_one (opString : Nat → String) (code : List Nat) (prev : Option StepFields)
    (op : String) (f : StepFields) (sub : Option VmTrace) :
    walkLoop opString code prev op [.mk f sub] =
      match walkSub opString sub with
      | none => none
      | some subTraces => some (.mk (linkStack prev (setOp f op)) sub :: subTraces) := by
  rw [walkLoop]

theorem walkLoop_cons (opString : Nat → String) (code : List Nat) (prev : Option StepFields)
    (op : String) (f : StepFields) (sub : Option VmTrace) (next : VmState) (tl : List VmState) :
    walkLoop opString code prev op (.mk f sub :: next :: tl) =
      match code.get? next.fields.ValuePc with
      | none => none
      | some b =>
        match walkSub opString sub with
        | none => none
        | some subTraces =>
          match walkLoop opString code (some (linkStack prev (setOp f op))) (opString b)
              (next :: tl) with
          | none => none
          | some more => some (.mk (linkStack prev (setOp f op)) sub :: subTraces ++ more) := by
  rw [walkLoop]

theorem walkSub_eq (opString : Nat → String) (sub : Option VmTrace)
    (ih : ∀ t, sub = some t →
      Walk opString t = some (walked opString t) ∧
        markLast (walked opString t) = some (walked opString t)) :
    walkSub opString sub = some (walkedSub opString sub) ∧
      (walkedSub opString sub ≠ [] →
        markLast (walkedSub opString sub) = some (walkedSub opString sub)) := by
  cases sub with
  | none => simp [walkSub, walkedSub]
  | some t =>
    obtain ⟨h1, h2⟩ := ih t rfl
    simp [walkSub, walkedSub, h1, h2]

theorem walkedSub_eq_nil (opString : Nat → String) (sub : Option VmTrace)
    (hv : validSub sub = true) : walkedSub opString sub = [] ↔ sub = none := by
  cases sub with
  | none => simp [walkedSub]
  | some t =>
    obtain ⟨logs, code⟩ := t
    cases logs with
    | nil => simp [validSub, validTrace] at hv
    | cons s rest => obtain ⟨f, sub⟩ := s; simp [walkedSub, walked, walkedList]

theorem walkLoop_eq (opString : Nat → String) (code : List Nat) :
    ∀ (logs : List VmState) (prev : Option StepFields) (op : String),
      validSteps code logs = true →
      (∀ s, logs.head? = some s → op = opString (code.getD s.fields.ValuePc 0)) →
      (∀ s ∈ logs, ∀ t, s.ValueSub = some t → validTrace t = true →
        Walk opString t = some (walked opString t) ∧
          markLast (walked opString t) = some (walked opString t)) →
      ∃ u, walkLoop opString code prev op logs = some u ∧
        (logs ≠ [] → markLast u = some (walkedList opString code prev logs)) := by
  intro logs
  induction logs with
  | nil => intro prev op _ _ _; exact ⟨[], rfl, fun h => absurd rfl h⟩
  | cons s rest ih =>
    intro prev op hv hop hsub
    obtain ⟨f, sub⟩ := s
    have hop0 : op = opString (code.getD f.ValuePc 0) := hop _ rfl
    simp only [validSteps, Bool.and_eq_true, decide_eq_true_eq] at hv
    obtain ⟨⟨hpc, hvs⟩, hvr⟩ := hv
    obtain ⟨hs1, hs2⟩ := walkSub_eq opString sub (fun t ht =>
      hsub (.mk f sub) (List.mem_cons_self _ _) t (by simpa [VmState.ValueSub] using ht)
        (by subst ht; simpa [validSub] using hvs))
    subst hop0
    cases rest with
    | nil =>
      refine ⟨.mk (walkedFields opString code prev f) sub ::
        walkedSub opString sub, by rw [walkLoop_one, hs1]; rfl, fun _ => ?_⟩
      by_cases hne : walkedSub opString sub = []
      · have hsn : sub = none := (walkedSub_eq_nil opString sub hvs).1 hne
        subst hsn
        simp [walkedList, walkedSub, markLast, setTerminating, walkedEntry]
      · have hsome : sub.isNone = false := by
          cases sub with
          | none => simp [walkedSub] at hne
          | some t => rfl
        have := markLast_append [VmState.mk (walkedFields opString code prev f) sub] _ hne
        simp only [List.singleton_append] at this
        rw [this, hs2 hne]
        simp [walkedList, hsome, walkedEntry]
    | cons n tl =>
      have hv2 : validSteps code (n :: tl) = true := hvr
      have hnpc : n.fields.ValuePc < code.length := by
        obtain ⟨g, nsub⟩ := n
        simp only [validSteps, Bool.and_eq_true, decide_eq_true_eq] at hv2
        exact hv2.1.1
      have hget : code.get? n.fields.ValuePc = some (code.getD n.fields.ValuePc 0) := by
        simp [List.getD, List.getElem?_eq_getElem hnpc]
      obtain ⟨u, hu1, hu2⟩ := ih (some (walkedFields opString code prev f))
        (opString (code.getD n.fields.ValuePc 0)) hv2 (by intro s hs; cases hs; rfl)
        (fun s hs => hsub s (List.mem_cons_of_mem _ hs))
      have hu3 := hu2 (by simp)
      refine ⟨.mk (walkedFields opString code prev f) sub ::
        walkedSub opString sub ++ u, by rw [walkLoop_cons, hget]; simp only [hs1]; rw [walkedFields] at hu1; rw [hu1]; rfl, fun _ => ?_⟩
      have hune : u ≠ [] := markLast_ne_nil hu3
      have := markLast_append (VmState.mk (walkedFields opString code prev f) sub :: walkedSub opString sub) u hune
      rw [this, hu3]
      simp [walkedList, walkedEntry]

/-- On a valid trace `Walk` returns, and what it returns is `walked`; the last entry
of that output is already marked. -/
theorem Walk_eq_walked (opString : Nat → String) :
    ∀ vmt, validTrace vmt = true →
      Walk opString vmt = some (walked opString vmt) ∧
        markLast (walked opString vmt) = some (walked opString vmt) := by
  intro vmt
  induction vmt using VmTrace.induct with
  | h logs code ih =>
    intro hv
    simp only [validTrace, Bool.and_eq_true, Bool.not_eq_true', List.isEmpty_eq_false] at hv
    obtain ⟨hne, hvs⟩ := hv
    obtain ⟨s, rest, rfl⟩ := List.exists_cons_of_ne_nil hne
    have hpc : s.fields.ValuePc < code.length := by
      obtain ⟨f, sub⟩ := s
      simp only [validSteps, Bool.and_eq_true, decide_eq_true_eq] at hvs
      exact hvs.1.1
    have hget : code.get? s.fields.ValuePc = some (code.getD s.fields.ValuePc 0) := by
      simp [List.getD, List.getElem?_eq_getElem hpc]
    obtain ⟨u, hu1, hu2⟩ := walkLoop_eq opString code (s :: rest) none
      (opString (code.getD s.fields.ValuePc 0)) hvs (by intro x hx; cases hx; rfl) ih
    have hu3 := hu2 (by simp)
    have hw : Walk opString (.mk (s :: rest) code) = some (walked opString (.mk (s :: rest) code)) := by
      rw [Walk]
      simp only [firstOp, hget, Option.map_some', hu1, hu3, walked]
    exact ⟨hw, by rw [walked]; exact markLast_idem hu3⟩

theorem walkSub_some_valid (opString : Nat → String) (sub : Option VmTrace) (u : List VmState)
    (h : walkSub opString sub = some u)
    (ih : ∀ t, sub = some t → (Walk opString t).isSome = true → validTrace t = true) :
    validSub sub = true := by
  cases sub with
  | none => rfl
  | some t =>
    rw [validSub]
    apply ih t rfl
    rw [walkSub] at h
    cases hw : Walk opString t with
    | none => rw [hw] at h; cases h
    | some x => rfl

theorem walkLoop_some_valid (opString : Nat → String) (code : List Nat) :
    ∀ (logs : List VmState) (prev : Option StepFields) (op : String) (u : List VmState),
      walkLoop opString code prev op logs = some u →
      (∀ s, logs.head? = some s → s.fields.ValuePc < code.length) →
      (∀ s ∈ logs, ∀ t, s.ValueSub = some t →
        (Walk opString t).isSome = true → validTrace t = true) →
      validSteps code logs = true := by
  intro logs
  induction logs with
  | nil => intro _ _ _ _ _ _; rfl
  | cons s rest ih =>
    intro prev op u hu hpc hsub
    obtain ⟨f, sub⟩ := s
    have hpc0 : f.ValuePc < code.length := hpc _ rfl
    have hsubv : ∀ x, walkSub opString sub = some x → validSub sub = true := fun x hx =>
      walkSub_some_valid opString sub x hx (fun t ht =>
        hsub (.mk f sub) (List.mem_cons_self _ _) t (by simpa [VmState.ValueSub] using ht))
    cases rest with
    | nil =>
      rw [walkLoop_one] at hu
      cases hs : walkSub opString sub with
      | none => rw [hs] at hu; cases hu
      | some x => simp [validSteps, hpc0, hsubv x hs]
    | cons n tl =>
      rw [walkLoop_cons] at hu
      cases hg : code.get? n.fields.ValuePc with
      | none => rw [hg] at hu; cases hu
      | some b =>
        rw [hg] at hu
        cases hs : walkSub opString sub with
        | none => rw [hs] at hu; cases hu
        | some x =>
          simp only [hs] at hu
          cases hl : walkLoop opString code (some (linkStack prev (setOp f op))) (opString b)
              (n :: tl) with
          | none => rw [hl] at hu; cases hu
          | some more =>
            have hn : n.fields.ValuePc < code.length := by
              rcases Nat.lt_or_ge n.fields.ValuePc code.length with h | h
              · exact h
              · rw [List.get?_eq_none.2 h] at hg; cases hg
            have := ih _ _ _ hl (by intro s hs2; cases hs2; exact hn)
              (fun s hs2 => hsub s (List.mem_cons_of_mem _ hs2))
            rw [validSteps, this, hsubv x hs]
            simp [hpc0]

/-- The walker returns exactly on the valid traces. -/
theorem Walk_isSome (opString : Nat → String) :
    ∀ vmt, (Walk opString vmt).isSome = validTrace vmt := by
  have key : ∀ vmt, (Walk opString vmt).isSome = true → validTrace vmt = true := by
    intro vmt
    induction vmt using VmTrace.induct with
    | h logs code ih =>
      intro hw
      rw [Walk] at hw
      cases logs with
      | nil => simp [firstOp] at hw
      | cons s rest =>
        cases hg : code.get? s.fields.ValuePc with
        | none => simp only [firstOp, hg] at hw; simp at hw
        | some b =>
          have hn : s.fields.ValuePc < code.length := by
            rcases Nat.lt_or_ge s.fields.ValuePc code.length with h | h
            · exact h
            · rw [List.get?_eq_none.2 h] at hg; cases hg
          simp only [firstOp, hg, Option.map_some'] at hw
          cases hl : walkLoop opString code none (opString b) (s :: rest) with
          | none => simp [hl] at hw
          | some u =>
            have := walkLoop_some_valid opString code _ _ _ _ hl
              (by intro x hx; cases hx; exact hn) ih
            simp [validTrace, this]
  intro vmt
  cases hv : validTrace vmt with
  | true => rw [(Walk_eq_walked opString vmt hv).1]; rfl
  | false =>
    cases hw : (Walk opString vmt).isSome with
    | false => rfl
    | true => rw [key vmt hw] at hv; cases hv

theorem linkStack_eq (prev : Option StepFields) (f : StepFields) :
    linkStack prev f = { f with ValueStack := (linkStack prev f).ValueStack } := by
  cases prev with
  | none => rfl
  | some p =>
    simp only [linkStack]
    split <;> rfl

theorem walkedList_length (opString : Nat → String) (code : List Nat) :
    ∀ (logs : List VmState) (prev : Option StepFields),
      (∀ s ∈ logs, ∀ t, s.ValueSub = some t → (walked opString t).length = totalSteps t) →
      (walkedList opString code prev logs).length = stepsOfList logs := by
  intro logs
  induction logs with
  | nil => intro _ _; rfl
  | cons s rest ih =>
    intro prev hsub
    obtain ⟨f, sub⟩ := s
    have hs : (walkedSub opString sub).length = stepsOfSub sub := by
      cases sub with
      | none => rfl
      | some t => exact hsub (.mk f (some t)) (List.mem_cons_self _ _) t rfl
    simp only [walkedList, stepsOfList, List.length_cons, List.length_append, hs,
      ih _ (fun s hs2 => hsub s (List.mem_cons_of_mem _ hs2))]
    omega

/-- The closed form has one entry per step of the tree. -/
theorem walked_length (opString : Nat → String) :
    ∀ vmt, (walked opString vmt).length = totalSteps vmt := by
  intro vmt
  induction vmt using VmTrace.induct with
  | h logs code ih =>
    rw [walked, totalSteps]
    exact walkedList_length opString code logs none ih

theorem walkedSub_length (opString : Nat → String) (sub : Option VmTrace) :
    (walkedSub opString sub).length = stepsOfSub sub := by
  cases sub with
  | none => rfl
  | some t => exact walked_length opString t

theorem walkedList_view (opString : Nat → String) (code : List Nat) :
    ∀ (logs : List VmState) (prev : Option StepFields),
      (∀ s ∈ logs, ∀ t, s.ValueSub = some t →
        (walked opString t).map (fun e => (e.payload, e.fields.ValueOp, e.fields.Terminating)) =
          (stepInfos t).map (fun i => (i.step.payload,
            opString (i.code.getD i.step.fields.ValuePc 0),
            i.step.fields.Terminating || (i.lastOfSegment && i.step.ValueSub.isNone)))) →
      (walkedList opString code prev logs).map
          (fun e => (e.payload, e.fields.ValueOp, e.fields.Terminating)) =
        (infosOfList code logs).map (fun i => (i.step.payload,
          opString (i.code.getD i.step.fields.ValuePc 0),
          i.step.fields.Terminating || (i.lastOfSegment && i.step.ValueSub.isNone))) := by
  intro logs
  induction logs with
  | nil => intro _ _; rfl
  | cons s rest ih =>
    intro prev hsub
    obtain ⟨f, sub⟩ := s
    have hs : (walkedSub opString sub).map
          (fun e => (e.payload, e.fields.ValueOp, e.fields.Terminating)) =
        (infosOfSub sub).map (fun i => (i.step.payload,
          opString (i.code.getD i.step.fields.ValuePc 0),
          i.step.fields.Terminating || (i.lastOfSegment && i.step.ValueSub.isNone))) := by
      cases sub with
      | none => rfl
      | some t => exact hsub (.mk f (some t)) (List.mem_cons_self _ _) t rfl
    rw [walkedList, infosOfList, List.map_cons, List.map_cons, List.map_append, List.map_append,
      hs, ih _ (fun s hs2 => hsub s (List.mem_cons_of_mem _ hs2))]
    congr 1
    rw [walkedEntry, walkedFields, linkStack_eq]
    simp [VmState.payload, VmState.fields, VmState.ValueSub, setOp]

/-- Entry by entry, the closed form is the pre-order flattening of the tree with the
mnemonic decoded from the entry's own segment and the terminal flag set on the steps
that end a segment without a nested trace. -/
theorem walked_view (opString : Nat → String) :
    ∀ vmt, (walked opString vmt).map
          (fun e => (e.payload, e.fields.ValueOp, e.fields.Terminating)) =
        (stepInfos vmt).map (fun i => (i.step.payload,
          opString (i.code.getD i.step.fields.ValuePc 0),
          i.step.fields.Terminating || (i.lastOfSegment && i.step.ValueSub.isNone))) := by
  intro vmt
  induction vmt using VmTrace.induct with
  | h logs code ih =>
    rw [walked, stepInfos]
    exact walkedList_view opString code logs none ih

theorem map_eq_pointwise {α β γ : Type} (f : α → γ) (g : β → γ) (l1 : List α) (l2 : List β)
    (h : l1.map f = l2.map g) :
    l1.length = l2.length ∧
      ∀ i a b, l1.get? i = some a → l2.get? i = some b → f a = g b := by
  refine ⟨by simpa using congrArg List.length h, ?_⟩
  intro i a b ha hb
  have h1 : (l1.map f).get? i = some (f a) := by simp [List.get?_eq_getElem?] at ha ⊢; exact ⟨a, ha, rfl⟩
  have h2 : (l2.map g).get? i = some (g b) := by simp [List.get?_eq_getElem?] at hb ⊢; exact ⟨b, hb, rfl⟩
  rw [h, h2] at h1
  exact (Option.some.inj h1).symm

theorem infosOfList_pc (code : List Nat) :
    ∀ (logs : List VmState), validSteps code logs = true →
      (∀ s ∈ logs, ∀ t, s.ValueSub = some t → validTrace t = true →
        ∀ info ∈ stepInfos t, info.step.fields.ValuePc < info.code.length) →
      ∀ info ∈ infosOfList code logs, info.step.fields.ValuePc < info.code.length := by
  intro logs
  induction logs with
  | nil => intro _ _ info hi; cases hi
  | cons s rest ih =>
    intro hv hsub info hi
    obtain ⟨f, sub⟩ := s
    simp only [validSteps, Bool.and_eq_true, decide_eq_true_eq] at hv
    obtain ⟨⟨hpc, hvs⟩, hvr⟩ := hv
    rw [infosOfList, List.mem_cons, List.mem_append] at hi
    rcases hi with rfl | hi | hi
    · exact hpc
    · cases sub with
      | none => cases hi
      | some t =>
        exact hsub (.mk f (some t)) (List.mem_cons_self _ _) t rfl (by simpa [validSub] using hvs)
          info hi
    · exact ih hvr (fun s hs2 => hsub s (List.mem_cons_of_mem _ hs2)) info hi

/-- In a valid trace every step's pc lies inside the bytecode of its own segment. -/
theorem stepInfos_pc :
    ∀ vmt, validTrace vmt = true →
      ∀ info ∈ stepInfos vmt, info.step.fields.ValuePc < info.code.length := by
  intro vmt
  induction vmt using VmTrace.induct with
  | h logs code ih =>
    intro hv
    simp only [validTrace, Bool.and_eq_true] at hv
    rw [stepInfos]
    exact infosOfList_pc code logs hv.2 ih

theorem markLast_fixed_last {w : List VmState} (h : markLast w = some w) :
    ∀ e, w.getLast? = some e → e.fields.Terminating = true := by
  intro e he
  rcases List.eq_nil_or_concat w with rfl | ⟨c, x, rfl⟩
  · cases he
  · rw [List.concat_eq_append] at h he
    rw [markLast_concat] at h
    have hx : setTerminating x = x := by
      have := Option.some.inj h
      simpa using this
    rw [List.getLast?_append] at he
    simp at he
    subst he
    rw [← hx]
    cases x; rfl

theorem stepsOfList_append (a b : List VmState) :
    stepsOfList (a ++ b) = stepsOfList a + stepsOfList b := by
  induction a with
  | nil => simp [stepsOfList]
  | cons s rest ih =>
    obtain ⟨f, sub⟩ := s
    rw [List.cons_append, stepsOfList, stepsOfList, ih]
    omega

theorem stepPos_zero (logs : List VmState) : stepPos logs 0 = 0 := by
  simp [stepPos, stepsOfList]

theorem stepPos_succ (f : StepFields) (sub : Option VmTrace) (rest : List VmState) (k : Nat) :
    stepPos (.mk f sub :: rest) (k + 1) = 1 + stepsOfSub sub + stepPos rest k := by
  simp [stepPos, stepsOfList]

theorem stepPos_le (logs : List VmState) (k : Nat) : stepPos logs k ≤ stepsOfList logs := by
  have := stepsOfList_append (logs.take k) (logs.drop k)
  rw [List.take_append_drop] at this
  rw [stepPos]; omega

theorem stepPos_next (logs : List VmState) (k : Nat) (s : VmState) (h : logs.get? k = some s) :
    stepPos logs (k + 1) = stepPos logs k + 1 + stepsOfSub s.ValueSub := by
  induction logs generalizing k with
  | nil => cases h
  | cons x rest ih =>
    obtain ⟨f, sub⟩ := x
    cases k with
    | zero =>
      simp at h; subst h
      simp [stepPos, stepsOfList, VmState.ValueSub]
    | succ j =>
      rw [stepPos_succ, stepPos_succ, ih j (by simpa using h)]
      omega

theorem stepPos_flat (logs : List VmState) (k : Nat) (hk : k ≤ logs.length)
    (h : ∀ j s, j < k → logs.get? j = some s → s.ValueSub = none) : stepPos logs k = k := by
  induction k with
  | zero => exact stepPos_zero logs
  | succ j ih =>
    have hj : j < logs.length := hk
    have hs : logs.get? j = some (logs.get ⟨j, hj⟩) := List.get?_eq_get hj
    rw [stepPos_next logs j _ hs, ih (Nat.le_of_lt hj) (fun i s hi => h i s (Nat.lt_succ_of_lt hi)),
      h j _ (Nat.lt_succ_self j) hs]
    rfl

theorem walkedList_cons_drop (opString : Nat → String) (code : List Nat)
    (prev : Option StepFields) (f : StepFields) (sub : Option VmTrace) (rest : List VmState)
    (p : Nat) :
    (walkedList opString code prev (.mk f sub :: rest)).drop (1 + stepsOfSub sub + p) =
      (walkedList opString code
        (some (walkedFields opString code prev f)) rest).drop p := by
  rw [walkedList]
  have h1 : 1 + stepsOfSub sub + p = (stepsOfSub sub + p) + 1 := by omega
  rw [h1, List.drop_succ_cons, ← walkedSub_length opString sub, ← List.drop_drop,
    List.drop_left]

theorem walkedEntry_payload (opString : Nat → String) (code : List Nat)
    (prev : Option StepFields) (f : StepFields) (sub : Option VmTrace) (b : Bool) :
    (walkedEntry (walkedFields opString code prev f) sub b).payload = (VmState.mk f sub).payload := by
  rw [walkedEntry, walkedFields, linkStack_eq]
  simp [VmState.payload, setOp]

/-- Inside the closed form of a segment, the entry of step `k` is followed by the
entries of its nested trace and then by the entries from step `k+1` on. -/
theorem walkedList_drop (opString : Nat → String) (code : List Nat) :
    ∀ (logs : List VmState) (prev : Option StepFields) (k : Nat) (s : VmState),
      logs.get? k = some s →
      ∃ e, e.payload = s.payload ∧
        (walkedList opString code prev logs).drop (stepPos logs k) =
          e :: (walkedSub opString s.ValueSub ++
            (walkedList opString code prev logs).drop (stepPos logs (k + 1))) := by
  intro logs
  induction logs with
  | nil => intro _ k s h; cases h
  | cons x rest ih =>
    intro prev k s h
    obtain ⟨f, sub⟩ := x
    cases k with
    | zero =>
      simp at h; subst h
      refine ⟨walkedEntry (walkedFields opString code prev f) sub (rest.isEmpty && sub.isNone),
        walkedEntry_payload opString code prev f sub _, ?_⟩
      have h1 : stepPos (VmState.mk f sub :: rest) (0 + 1) = 1 + stepsOfSub sub + 0 := by
        rw [stepPos_succ, stepPos_zero]
      rw [h1, walkedList_cons_drop, stepPos_zero, List.drop_zero, List.drop_zero, walkedList]
      rfl
    | succ j =>
      obtain ⟨e, he1, he2⟩ := ih (some (walkedFields opString code prev f))
        j s (by simpa using h)
      refine ⟨e, he1, ?_⟩
      rw [stepPos_succ, stepPos_succ, walkedList_cons_drop, walkedList_cons_drop]
      exact he2

/-- Inside the closed form of a segment, the stack reference of the entry of step
`k+1` is the one of the entry of step `k`, or absent when the mnemonic of the entry
of step `k` is `"CALL"`. -/
theorem walkedList_stack (opString : Nat → String) (code : List Nat) :
    ∀ (logs : List VmState) (prev : Option StepFields) (k : Nat) (s s' : VmState),
      logs.get? k = some s → logs.get? (k + 1) = some s' →
      ∃ e e' tl tl', e.payload = s.payload ∧ e'.payload = s'.payload ∧
        (walkedList opString code prev logs).drop (stepPos logs k) = e :: tl ∧
        (walkedList opString code prev logs).drop (stepPos logs (k + 1)) = e' :: tl' ∧
        e'.fields.ValueStack =
          if e.fields.ValueOp = "CALL" then none else e.fields.ValueStack := by
  intro logs
  induction logs with
  | nil => intro _ k s s' h; cases h
  | cons x rest ih =>
    intro prev k s s' h h'
    obtain ⟨f, sub⟩ := x
    cases k with
    | zero =>
      simp at h; subst h
      cases rest with
      | nil => simp at h'
      | cons y r =>
        simp at h'; subst h'
        obtain ⟨g, gsub⟩ := y
        have h1 : stepPos (VmState.mk f sub :: VmState.mk g gsub :: r) (0 + 1) =
            1 + stepsOfSub sub + 0 := by
          rw [stepPos_succ, stepPos_zero]
        have hA := (rfl : walkedList opString code prev (.mk f sub :: .mk g gsub :: r) = _)
        rw [← List.drop_zero (walkedList opString code prev (.mk f sub :: .mk g gsub :: r)),
          ← stepPos_zero (.mk f sub :: .mk g gsub :: r)] at hA
        conv at hA => rhs; rw [walkedList]
        have hB := (rfl : (walkedList opString code prev (.mk f sub :: .mk g gsub :: r)).drop
          (stepPos (.mk f sub :: .mk g gsub :: r) (0 + 1)) = _)
        conv at hB => rhs; rw [h1, walkedList_cons_drop, List.drop_zero, walkedList]
        refine ⟨_, _, _, _, ?_, ?_, hA, hB, ?_⟩
        · exact walkedEntry_payload opString code prev f sub _
        · exact walkedEntry_payload opString code _ g gsub _
        · simp only [walkedEntry, VmState.fields]
          rw [walkedFields, linkStack]
          split <;> rfl
    | succ j =>
      obtain ⟨e, e', tl, tl', he1, he2, he3, he4, he5⟩ :=
        ih (some (walkedFields opString code prev f)) j s s'
          (by simpa using h) (by simpa using h')
      refine ⟨e, e', tl, tl', he1, he2, ?_, ?_, he5⟩
      · rw [stepPos_succ, walkedList_cons_drop]; exact he3
      · rw [stepPos_succ, walkedList_cons_drop]; exact he4

theorem segmentsOfList_infix (opString : Nat → String) (code : List Nat) (o : Nat)
    (seg : VmTrace) :
    ∀ (logs : List VmState) (off : Nat) (prev : Option StepFields),
      validSteps code logs = true →
      (∀ s ∈ logs, ∀ t, s.ValueSub = some t → ∀ off, (o, seg) ∈ segments off t →
        validTrace t = true →
        validTrace seg = true ∧
          ∃ pre post, walked opString t = pre ++ walked opString seg ++ post ∧
            o = off + pre.length) →
      (o, seg) ∈ segmentsOfList off logs →
      validTrace seg = true ∧
        ∃ pre post, walkedList opString code prev logs = pre ++ walked opString seg ++ post ∧
          o = off + pre.length := by
  intro logs
  induction logs with
  | nil => intro _ _ _ _ h; cases h
  | cons x rest ih =>
    intro off prev hv hsub hmem
    obtain ⟨f, sub⟩ := x
    simp only [validSteps, Bool.and_eq_true, decide_eq_true_eq] at hv
    obtain ⟨⟨hpc, hvs⟩, hvr⟩ := hv
    rw [segmentsOfList, List.mem_append] at hmem
    rcases hmem with hmem | hmem
    · cases sub with
      | none => cases hmem
      | some t =>
        obtain ⟨hseg, pre, post, hw, ho⟩ :=
          hsub (.mk f (some t)) (List.mem_cons_self _ _) t rfl (off + 1) hmem
            (by simpa [validSub] using hvs)
        refine ⟨hseg, walkedEntry (walkedFields opString code prev f) (some t)
          (rest.isEmpty && (some t).isNone) :: pre, post ++ walkedList opString code
          (some (walkedFields opString code prev f)) rest, ?_, ?_⟩
        · rw [walkedList, walkedSub, hw]
          simp
        · simp [ho]; omega
    · obtain ⟨hseg, pre, post, hw, ho⟩ := ih (off + 1 + stepsOfSub sub)
        (some (walkedFields opString code prev f)) hvr
        (fun s hs2 => hsub s (List.mem_cons_of_mem _ hs2)) hmem
      refine ⟨hseg, walkedEntry (walkedFields opString code prev f) sub
        (rest.isEmpty && sub.isNone) :: (walkedSub opString sub ++ pre), post, ?_, ?_⟩
      · rw [walkedList, hw]
        simp
      · simp [ho, walkedSub_length]; omega

/-- Every segment of a valid trace is valid, and its own closed form sits in the
closed form of the whole trace, starting at the segment's offset. -/
theorem segments_infix (opString : Nat → String) (o : Nat) (seg : VmTrace) :
    ∀ vmt off, (o, seg) ∈ segments off vmt → validTrace vmt = true →
      validTrace seg = true ∧
        ∃ pre post, walked opString vmt = pre ++ walked opString seg ++ post ∧
          o = off + pre.length := by
  intro vmt
  induction vmt using VmTrace.induct with
  | h logs code ih =>
    intro off hmem hv
    rw [segments, List.mem_cons] at hmem
    rcases hmem with hmem | hmem
    · cases hmem
      exact ⟨hv, [], [], by simp, by simp⟩
    · simp only [validTrace, Bool.and_eq_true] at hv
      rw [walked]
      exact segmentsOfList_infix opString code o seg logs off none hv.2 ih hmem

theorem drop_infix {α : Type} (pre w post : List α) (p : Nat) (hp : p ≤ w.length) :
    (pre ++ w ++ post).drop (pre.length + p) = w.drop p ++ post := by
  rw [List.append_assoc, List.drop_append, List.drop_append_of_le_length hp]

theorem get?_of_drop_eq_cons {α : Type} {l tl : List α} {n : Nat} {e : α}
    (h : l.drop n = e :: tl) : l.get? n = some e := by
  have := List.head?_drop l n
  rw [h] at this
  simpa using this.symm

theorem length_le_stepsOfList (logs : List VmState) : logs.length ≤ stepsOfList logs := by
  induction logs with
  | nil => simp
  | cons s rest ih => obtain ⟨f, sub⟩ := s; rw [stepsOfList, List.length_cons]; omega

theorem stepInfos_payload (opString : Nat → String) (vmt : VmTrace) :
    (walked opString vmt).map VmState.payload = (stepInfos vmt).map (fun i => i.step.payload) := by
  have := congrArg (List.map Prod.fst) (walked_view opString vmt)
  simpa [List.map_map, Function.comp_def] using this

theorem sendLoop_exit (blockNumber : Int) :
    ∀ (n : Nat) (lastBlock : Int), (blockNumber - lastBlock).toNat ≤ n →
      ¬ (sendLoop blockNumber n lastBlock).2 < blockNumber := by
  intro n
  induction n with
  | zero => intro l h; simp only [sendLoop]; omega
  | succ n ih =>
    intro l h
    rw [sendLoop]
    split
    · exact ih (l + 1) (by omega)
    · assumption

/-- C1: on a valid trace `Walk` returns, and what it returns has one entry for each
step of the whole trace tree, in the pre-order of the tree: its length is the total
number of steps (so at least the number of steps of the top segment) and its entries
are, up to the three fields `Walk` writes, the steps of the tree, each once. -/
theorem Walk_length (opString : Nat → String) (vmt : VmTrace) (hv : validTrace vmt = true) :
    ∃ out, Walk opString vmt = some out ∧ out.length = totalSteps vmt ∧
      vmt.Logs.length ≤ out.length ∧
      out.map VmState.payload = (stepInfos vmt).map (fun i => i.step.payload) := by
  refine ⟨walked opString vmt, (Walk_eq_walked opString vmt hv).1, walked_length opString vmt,
    ?_, stepInfos_payload opString vmt⟩
  rw [walked_length]
  obtain ⟨logs, code⟩ := vmt
  exact length_le_stepsOfList logs

/-- Instance of `Walk_length` on the example trace. -/
theorem Walk_length_witness :
    validTrace exampleTrace = true ∧
      ∃ out, Walk exampleOpString exampleTrace = some out ∧ out.length = totalSteps exampleTrace ∧
        exampleTrace.Logs.length ≤ out.length ∧
        out.map VmState.payload = (stepInfos exampleTrace).map (fun i => i.step.payload) :=
  ⟨by decide, Walk_length exampleOpString exampleTrace (by decide)⟩

/-- With `lastBlock` below `blockNumber`, the inner loop sends `blockNumber` itself
once per height in between, and leaves `lastBlock` at `blockNumber`. -/
theorem sendLoop_replicate (blockNumber : Int) :
    ∀ (n : Nat) (lastBlock : Int), lastBlock + n = blockNumber →
      sendLoop blockNumber n lastBlock = (List.replicate n blockNumber, blockNumber) := by
  intro n
  induction n with
  | zero => intro l h; simp only [sendLoop, List.replicate]; simp at h; rw [h]
  | succ n ih =>
    intro l h
    have hlt : l < blockNumber := by push_cast at h; omega
    rw [sendLoop, if_pos hlt, ih (l + 1) (by push_cast at h ⊢; omega)]
    rfl

/-- C6 (evaluation of the code): for the readings 0, 5, 5, 7 the poll worker sends
7 twice; the height 6 is never sent, and the stream is not strictly increasing. -/
theorem subscribeViaPoll_readings :
    subscribeViaPoll [.ok 0, .ok 5, .ok 5, .ok 7] = [7, 7] := by
  decide

/-- When the VM trace is present `Traces` returns the call-trace list as it is. -/
theorem Traces_with_vmTrace (vmt : VmTrace) (calls : List Trace) :
    Traces { VmTrace := some vmt, CallTrace := calls } = calls := by
  simp [Traces]

/-- C7 (evaluation of the code): on a result whose VM trace is absent `Traces`
returns nothing, whatever the call-trace list holds. -/
theorem Traces_without_vmTrace :
    Traces { VmTrace := none, CallTrace := [exampleCall] } = [] ∧
      (Traces { VmTrace := none, CallTrace := [exampleCall] }).length ≠ [exampleCall].length := by
  decide

/-- What the read operations return when the transport call fails with `e`: no
result (the height 0 for `CurrentBlockNumber`) and `e` wrapped under the words of
the operation's format string, with the key argument between brackets. -/
theorem read_operations_on_error (opString : Nat → String) (e key : String) (number : Int)
    (tr : TraceResult) :
    CurrentBlockNumber (some e) 0 = (0, some ("current block number: " ++ e)) ∧
    GetBlock (some e) () number =
      (none, some ("get block by number [" ++ toString number ++ "]: " ++ e)) ∧
    GetBlockByHash (some e) () key = (none, some ("get block by hash [" ++ key ++ "]: " ++ e)) ∧
    GetTransaction (some e) () key = (none, some ("get transaction [" ++ key ++ "]: " ++ e)) ∧
    GetTransactionReceipt (some e) () key =
      (none, some ("get transaction receipt [" ++ key ++ "]: " ++ e)) ∧
    GetTransactionVMTrace opString (some e) tr key =
      some (none, some ("get transaction trace [" ++ key ++ "]: " ++ e)) ∧
    GetTransactionCallTrace (some e) tr key =
      (none, some ("get transaction pretty trace [" ++ key ++ "]: " ++ e)) ∧
    GetBalance (some e) 0 key = (none, some ("get code [" ++ key ++ "]: " ++ e)) ∧
    GetCode (some e) "" key = (none, some ("get code [" ++ key ++ "]: " ++ e)) ∧
    GetStorageAt (some e) "" key =
      (none, some ("get transaction receipt [" ++ key ++ "]: " ++ e)) :=
  ⟨rfl, rfl, rfl, rfl, rfl, rfl, rfl, rfl, rfl, rfl⟩

/-- C8 (evaluation of the code): when the transport fails, `GetBalance` reports
`get code [...]`, the very error of `GetCode`, and `GetStorageAt` reports
`get transaction receipt [...]`, the very error of `GetTransactionReceipt`. -/
theorem GetBalance_error_message :
    GetBalance (some "EOF") 0 "0xabc" = (none, some "get code [0xabc]: EOF") ∧
      (GetBalance (some "EOF") 0 "0xabc").2 = (GetCode (some "EOF") "" "0xabc").2 ∧
      GetStorageAt (some "EOF") "" "0xdef" = (none, some "get transaction receipt [0xdef]: EOF") ∧
      (GetStorageAt (some "EOF") "" "0xdef").2 =
        (GetTransactionReceipt (some "EOF") () "0xdef").2 := by
  decide

/-- C9: once the transport is dialled, a probe without error selects the Parity
schema and a probe with any error selects the Geth schema, `Dial` succeeding in both
cases; `Dial` fails exactly when dialling the transport fails, with the dial error,
so the branch for an unsupported node type is never taken. -/
theorem Dial_schema {ρ : Type} (DiscoverAndDial : String → Except String ρ)
    (CallRequest : ρ → Option String) (target : String) :
    (∀ rpc, DiscoverAndDial target = .ok rpc →
      (CallRequest rpc = none →
        Dial DiscoverAndDial CallRequest target = .ok ⟨rpc, .parity⟩) ∧
      (∀ e, CallRequest rpc = some e →
        Dial DiscoverAndDial CallRequest target = .ok ⟨rpc, .geth⟩)) ∧
    (∀ msg, Dial DiscoverAndDial CallRequest target = .error msg ↔
      ∃ e, DiscoverAndDial target = .error e ∧ msg = "dial ethereum rpc: " ++ e) := by
  refine ⟨?_, ?_⟩
  · intro rpc hd
    refine ⟨?_, ?_⟩
    · intro hp
      simp [Dial, hd, hp]
    · intro e hp
      simp [Dial, hd, hp]
  · intro msg
    cases hd : DiscoverAndDial target with
    | error err =>
      simp only [Dial, hd]
      constructor
      · intro h; cases h; exact ⟨err, rfl, rfl⟩
      · rintro ⟨e, he, rfl⟩; cases he; rfl
    | ok rpc =>
      constructor
      · intro h
        cases hp : CallRequest rpc with
        | none => simp [Dial, hd, hp] at h
        | some e => simp [Dial, hd, hp] at h
      · rintro ⟨e, he, _⟩; cases he

/-- Instance of `Dial_schema`: a probe that fails selects Geth, a probe that succeeds selects Parity. -/
theorem Dial_schema_witness :
    Dial (fun _ => Except.ok 7) (fun _ => some "Method not found") "ws://node" =
        .ok ⟨7, .geth⟩ ∧
      Dial (fun _ => Except.ok 7) (fun _ => (none : Option String)) "ws://node" =
        .ok ⟨7, .parity⟩ :=
  ⟨((Dial_schema (fun _ => Except.ok 7) (fun _ => some "Method not found") "ws://node").1 7
      rfl).2 "Method not found" rfl,
    ((Dial_schema (fun _ => Except.ok 7) (fun _ => (none : Option String)) "ws://node").1 7
      rfl).1 rfl⟩

theorem validSteps_mem (code : List Nat) :
    ∀ (logs : List VmState), validSteps code logs = true → ∀ s ∈ logs,
      s.fields.ValuePc < code.length ∧ validSub s.ValueSub = true := by
  intro logs
  induction logs with
  | nil => intro _ s hs; cases hs
  | cons x rest ih =>
    intro hv s hs
    obtain ⟨f, sub⟩ := x
    simp only [validSteps, Bool.and_eq_true, decide_eq_true_eq] at hv
    rcases List.mem_cons.1 hs with rfl | hs
    · exact ⟨hv.1.1, hv.1.2⟩
    · exact ih hv.2 s hs

theorem validSteps_iff_segments (code : List Nat) :
    ∀ (logs : List VmState),
      (∀ s ∈ logs, ∀ t, s.ValueSub = some t → ∀ off,
        (validTrace t = true ↔ ∀ o seg, (o, seg) ∈ segments off t →
          seg.Logs ≠ [] ∧ ∀ x ∈ seg.Logs, x.fields.ValuePc < seg.Code.length)) →
      ∀ off, (validSteps code logs = true ↔
        (∀ s ∈ logs, s.fields.ValuePc < code.length) ∧
          ∀ o seg, (o, seg) ∈ segmentsOfList off logs →
            seg.Logs ≠ [] ∧ ∀ x ∈ seg.Logs, x.fields.ValuePc < seg.Code.length) := by
  intro logs
  induction logs with
  | nil => intro _ off; simp [validSteps, segmentsOfList]
  | cons x rest ih =>
    intro hsub off
    obtain ⟨f, sub⟩ := x
    have hrest := ih (fun s hs => hsub s (List.mem_cons_of_mem _ hs)) (off + 1 + stepsOfSub sub)
    have hs : validSub sub = true ↔ ∀ o seg, (o, seg) ∈ segmentsOfSub (off + 1) sub →
        seg.Logs ≠ [] ∧ ∀ x ∈ seg.Logs, x.fields.ValuePc < seg.Code.length := by
      cases sub with
      | none => simp [validSub, segmentsOfSub]
      | some t =>
        rw [validSub, segmentsOfSub]
        exact hsub (.mk f (some t)) (List.mem_cons_self _ _) t rfl (off + 1)
    simp only [validSteps, Bool.and_eq_true, decide_eq_true_eq, segmentsOfList, List.mem_append,
      List.mem_cons, hrest, hs]
    constructor
    · rintro ⟨⟨h1, h2⟩, h3, h4⟩
      refine ⟨?_, ?_⟩
      · rintro s (rfl | hs2)
        · exact h1
        · exact h3 s hs2
      · rintro o seg (h | h)
        · exact h2 o seg h
        · exact h4 o seg h
    · rintro ⟨h1, h2⟩
      exact ⟨⟨h1 _ (Or.inl rfl), fun o seg h => h2 o seg (Or.inl h)⟩,
        fun s hs2 => h1 s (Or.inr hs2), fun o seg h => h2 o seg (Or.inr h)⟩

/-- A trace is valid exactly when every segment of its tree has at least one step
and every step's pc is smaller than the length of its own segment's bytecode. -/
theorem validTrace_iff_segments :
    ∀ vmt off, (validTrace vmt = true ↔ ∀ o seg, (o, seg) ∈ segments off vmt →
      seg.Logs ≠ [] ∧ ∀ x ∈ seg.Logs, x.fields.ValuePc < seg.Code.length) := by
  intro vmt
  induction vmt using VmTrace.induct with
  | h logs code ih =>
    intro off
    have hl := validSteps_iff_segments code logs ih off
    simp only [validTrace, Bool.and_eq_true, Bool.not_eq_true', List.isEmpty_eq_false, segments,
      List.mem_cons, hl]
    constructor
    · rintro ⟨h1, h2, h3⟩ o seg (h | h)
      · cases h; exact ⟨h1, h2⟩
      · exact h3 o seg h
    · intro h
      have h0 := h off (.mk logs code) (Or.inl rfl)
      exact ⟨h0.1, h0.2, fun o seg hm => h o seg (Or.inr hm)⟩

/-- C10: `Walk` completes exactly on the valid traces, that is on the traces all of
whose segments have at least one step and only pcs inside their own bytecode, and so
does `ProcessTrace` on a result whose VM trace is present; a trace of a single step
with a valid pc is walked, the step being decoded by the first statement alone; on a
result without VM trace `ProcessTrace` changes nothing. -/
theorem Walk_completes (opString : Nat → String) :
    (∀ vmt, (Walk opString vmt).isSome = true ↔ validTrace vmt = true) ∧
    (∀ vmt, validTrace vmt = true ↔ ∀ off seg, (off, seg) ∈ segments 0 vmt →
      seg.Logs ≠ [] ∧ ∀ s ∈ seg.Logs, s.fields.ValuePc < seg.Code.length) ∧
    (∀ tr vmt, tr.VmTrace = some vmt →
      ((ProcessTrace opString tr).isSome = true ↔ validTrace vmt = true)) ∧
    (∀ f code b, code.get? f.ValuePc = some b →
      Walk opString (.mk [.mk f none] code) =
        some [.mk { f with ValueOp := opString b, Terminating := true } none]) ∧
    (∀ tr, tr.VmTrace = none → ProcessTrace opString tr = some tr) := by
  refine ⟨fun vmt => by rw [Walk_isSome], fun vmt => validTrace_iff_segments vmt 0, ?_, ?_, ?_⟩
  · intro tr vmt htr
    rw [← Walk_isSome opString vmt]
    simp only [ProcessTrace, htr]
    cases Walk opString vmt <;> simp
  · intro f code b hb
    rw [Walk]
    simp only [firstOp, VmState.fields, hb, Option.map_some', walkLoop_one, walkSub]
    simp [markLast, setTerminating, linkStack, setOp]
  · intro tr htr
    simp only [ProcessTrace, htr]

/-- Instance of `Walk_completes`: the example trace and a single step with pc 0 are walked, a single step with pc 1 past a bytecode of one byte is not. -/
theorem Walk_completes_witness :
    (Walk exampleOpString exampleTrace).isSome = true ∧
      Walk exampleOpString (.mk [.mk (exampleFields 0 none) none] [0xf1]) =
        some [.mk { exampleFields 0 none with ValueOp := "CALL", Terminating := true } none] ∧
      Walk exampleOpString (.mk [.mk (exampleFields 1 none) none] [0xf1]) = none :=
  ⟨((Walk_completes exampleOpString).1 exampleTrace).2 (by decide),
    (Walk_completes exampleOpString).2.2.2.1 (exampleFields 0 none) [0xf1] 0xf1 rfl,
    by
      have h := ((Walk_completes exampleOpString).1
        (.mk [.mk (exampleFields 1 none) none] [0xf1])).not.2 (by decide)
      simpa using h⟩

theorem payload_pc {e s : VmState} (h : e.payload = s.payload) :
    e.fields.ValuePc = s.fields.ValuePc := by
  obtain ⟨f, a⟩ := e
  obtain ⟨g, b⟩ := s
  simp only [VmState.payload, VmState.mk.injEq, StepFields.mk.injEq] at h
  exact h.1.1

theorem walkedSub_Walk (opString : Nat → String) (sub : Option VmTrace)
    (hv : validSub sub = true) :
    (sub = none → walkedSub opString sub = []) ∧
      (∀ t, sub = some t → Walk opString t = some (walkedSub opString sub)) := by
  cases sub with
  | none => exact ⟨fun _ => rfl, fun t ht => (by cases ht)⟩
  | some t =>
    refine ⟨fun h => (by cases h), fun u hu => ?_⟩
    cases hu
    exact (Walk_eq_walked opString t (by simpa [validSub] using hv)).1

/-- C2: on a valid trace the output of `Walk` is the pre-order flattening of the
trace tree. For every segment of the tree, starting at output index `off`, and every
step `k` of it: the entry at index `off + stepPos k` is step `k`, it is followed at
once by the walk of the step's nested trace (nothing when there is none), and what
comes next is the output from step `k+1` of the same segment on; the index of step
`k` is `k` itself when no earlier step of the segment carries a nested trace. -/
theorem Walk_preorder (opString : Nat → String) (vmt : VmTrace) (hv : validTrace vmt = true) :
    ∃ out, Walk opString vmt = some out ∧
      out.map VmState.payload = (stepInfos vmt).map (fun i => i.step.payload) ∧
      ∀ off seg, (off, seg) ∈ segments 0 vmt →
        (∀ k s, seg.Logs.get? k = some s →
          ∃ e subOut,
            e.payload = s.payload ∧
            (s.ValueSub = none → subOut = []) ∧
            (∀ t, s.ValueSub = some t → Walk opString t = some subOut) ∧
            subOut.length = stepsOfSub s.ValueSub ∧
            out.drop (off + stepPos seg.Logs k) =
              e :: (subOut ++ out.drop (off + stepPos seg.Logs (k + 1))) ∧
            stepPos seg.Logs (k + 1) = stepPos seg.Logs k + 1 + subOut.length) ∧
        (∀ k, k ≤ seg.Logs.length →
          (∀ j s, j < k → seg.Logs.get? j = some s → s.ValueSub = none) →
          stepPos seg.Logs k = k) := by
  refine ⟨walked opString vmt, (Walk_eq_walked opString vmt hv).1,
    stepInfos_payload opString vmt, ?_⟩
  intro off seg hmem
  obtain ⟨hseg, pre, post, hw, hoff⟩ := segments_infix opString off seg vmt 0 hmem hv
  obtain ⟨logs, code⟩ := seg
  refine ⟨?_, fun k hk h => stepPos_flat logs k hk h⟩
  intro k s hs
  have hvs : validSteps code logs = true := by
    simp only [validTrace, Bool.and_eq_true] at hseg
    exact hseg.2
  have hsmem : s ∈ logs := List.get?_mem hs
  obtain ⟨e, he1, he2⟩ := walkedList_drop opString code logs none k s hs
  obtain ⟨hn, hsome⟩ := walkedSub_Walk opString s.ValueSub (validSteps_mem code logs hvs s hsmem).2
  have hlen : (walked opString (.mk logs code)).length = stepsOfList logs :=
    walked_length opString (.mk logs code)
  refine ⟨e, walkedSub opString s.ValueSub, he1, hn, hsome, walkedSub_length opString _, ?_, ?_⟩
  · simp only [VmTrace.Logs]
    have h0 : off = pre.length := by omega
    rw [hw, h0, drop_infix pre _ post _ (by rw [hlen]; exact stepPos_le logs k),
      drop_infix pre _ post _ (by rw [hlen]; exact stepPos_le logs (k + 1))]
    rw [walked, he2]
    simp
  · simp only [VmTrace.Logs]
    rw [stepPos_next logs k s hs, walkedSub_length]

/-- Instance of `Walk_preorder` on the example trace. -/
theorem Walk_preorder_witness :
    validTrace exampleTrace = true ∧
    ∃ out, Walk exampleOpString exampleTrace = some out ∧
      out.map VmState.payload = (stepInfos exampleTrace).map (fun i => i.step.payload) ∧
      ∀ off seg, (off, seg) ∈ segments 0 exampleTrace →
        (∀ k s, seg.Logs.get? k = some s →
          ∃ e subOut,
            e.payload = s.payload ∧
            (s.ValueSub = none → subOut = []) ∧
            (∀ t, s.ValueSub = some t → Walk exampleOpString t = some subOut) ∧
            subOut.length = stepsOfSub s.ValueSub ∧
            out.drop (off + stepPos seg.Logs k) =
              e :: (subOut ++ out.drop (off + stepPos seg.Logs (k + 1))) ∧
            stepPos seg.Logs (k + 1) = stepPos seg.Logs k + 1 + subOut.length) ∧
        (∀ k, k ≤ seg.Logs.length →
          (∀ j s, j < k → seg.Logs.get? j = some s → s.ValueSub = none) →
          stepPos seg.Logs k = k) :=
  ⟨by decide, Walk_preorder exampleOpString exampleTrace (by decide)⟩

/-- C4: on a valid trace every entry of the output of `Walk` is a step of the tree
(entry `i` is step `i` of the pre-order flattening) and its mnemonic is the one of
the byte at its pc in the bytecode of its own segment, whatever mnemonic the step
arrived with. -/
theorem Walk_opcode (opString : Nat → String) (vmt : VmTrace) (hv : validTrace vmt = true) :
    ∃ out, Walk opString vmt = some out ∧ out.length = (stepInfos vmt).length ∧
      ∀ i e info, out.get? i = some e → (stepInfos vmt).get? i = some info →
        e.payload = info.step.payload ∧
          ∃ b, info.code.get? e.fields.ValuePc = some b ∧ e.fields.ValueOp = opString b := by
  obtain ⟨hlen, hpt⟩ := map_eq_pointwise _ _ _ _ (walked_view opString vmt)
  refine ⟨walked opString vmt, (Walk_eq_walked opString vmt hv).1, hlen, ?_⟩
  intro i e info he hi
  have h := hpt i e info he hi
  simp only [Prod.mk.injEq] at h
  obtain ⟨h1, h2, _⟩ := h
  have hpc := stepInfos_pc vmt hv info (List.get?_mem hi)
  refine ⟨h1, info.code.getD info.step.fields.ValuePc 0, ?_, h2⟩
  rw [payload_pc h1]
  simp [List.getD, List.getElem?_eq_getElem hpc]

/-- Instance of `Walk_opcode` on the example trace. -/
theorem Walk_opcode_witness :
    validTrace exampleTrace = true ∧
    ∃ out, Walk exampleOpString exampleTrace = some out ∧
      out.length = (stepInfos exampleTrace).length ∧
      ∀ i e info, out.get? i = some e → (stepInfos exampleTrace).get? i = some info →
        e.payload = info.step.payload ∧
          ∃ b, info.code.get? e.fields.ValuePc = some b ∧
            e.fields.ValueOp = exampleOpString b :=
  ⟨by decide, Walk_opcode exampleOpString exampleTrace (by decide)⟩

/-- C3, counterexample: in the example trace the second step is the last step of the
top segment, every step arrives unflagged, and yet the entry of that step is left
unflagged by `Walk`. -/
theorem segment_end_unflagged :
    validTrace exampleTrace = true ∧
    (∀ info ∈ stepInfos exampleTrace, info.step.fields.Terminating = false) ∧
    ∃ out e info, Walk exampleOpString exampleTrace = some out ∧
      out.get? 1 = some e ∧ (stepInfos exampleTrace).get? 1 = some info ∧
      e.payload = info.step.payload ∧
      info.lastOfSegment = true ∧ e.fields.Terminating = false := by
  refine ⟨by decide, by decide, _, _, _, rfl, rfl, rfl, rfl, rfl, rfl⟩

/-- C3, amended: on a valid trace whose steps all arrive unflagged, an entry of the
output of `Walk` is flagged terminal if and only if its step is the last one of its
own segment and carries no nested trace; the last entry of the output is flagged. -/
theorem Walk_terminal (opString : Nat → String) (vmt : VmTrace) (hv : validTrace vmt = true)
    (hflag : ∀ info ∈ stepInfos vmt, info.step.fields.Terminating = false) :
    ∃ out, Walk opString vmt = some out ∧ out.length = (stepInfos vmt).length ∧
      (∀ i e info, out.get? i = some e → (stepInfos vmt).get? i = some info →
        e.payload = info.step.payload ∧
          (e.fields.Terminating = true ↔
            (info.lastOfSegment = true ∧ info.step.ValueSub = none))) ∧
      (∀ e, out.getLast? = some e → e.fields.Terminating = true) := by
  obtain ⟨hlen, hpt⟩ := map_eq_pointwise _ _ _ _ (walked_view opString vmt)
  obtain ⟨hw, hm⟩ := Walk_eq_walked opString vmt hv
  refine ⟨walked opString vmt, hw, hlen, ?_, markLast_fixed_last hm⟩
  intro i e info he hi
  have h := hpt i e info he hi
  simp only [Prod.mk.injEq] at h
  obtain ⟨h1, _, h3⟩ := h
  refine ⟨h1, ?_⟩
  rw [h3, hflag info (List.get?_mem hi)]
  simp [Option.isNone_iff_eq_none]

/-- Instance of `Walk_terminal` on the example trace. -/
theorem Walk_terminal_witness :
    validTrace exampleTrace = true ∧
    (∀ info ∈ stepInfos exampleTrace, info.step.fields.Terminating = false) ∧
    ∃ out, Walk exampleOpString exampleTrace = some out ∧
      out.length = (stepInfos exampleTrace).length ∧
      (∀ i e info, out.get? i = some e → (stepInfos exampleTrace).get? i = some info →
        e.payload = info.step.payload ∧
          (e.fields.Terminating = true ↔
            (info.lastOfSegment = true ∧ info.step.ValueSub = none))) ∧
      (∀ e, out.getLast? = some e → e.fields.Terminating = true) :=
  ⟨by decide, by decide, Walk_terminal exampleOpString exampleTrace (by decide) (by decide)⟩

/-- C5, counterexample: in the example trace the first step decodes to
`DELEGATECALL`, a call-type opcode, and the second step of the same segment keeps
the stack reference of the first instead of losing it. -/
theorem delegatecall_keeps_stack :
    validTrace exampleTrace = true ∧
    ∃ out e e', Walk exampleOpString exampleTrace = some out ∧
      out.get? (0 + stepPos exampleTrace.Logs 0) = some e ∧
      out.get? (0 + stepPos exampleTrace.Logs 1) = some e' ∧
      e.fields.ValueOp = "DELEGATECALL" ∧
      e'.fields.ValueStack = some ["x"] ∧ e'.fields.ValueStack ≠ none := by
  refine ⟨by decide, _, _, _, rfl, rfl, rfl, rfl, rfl, by decide⟩

/-- C5, amended: on a valid trace, for every segment of the tree and every two
consecutive steps `i` and `i+1` of it, after `Walk`: if the mnemonic of step `i` is
`CALL` the stack reference of step `i+1` is absent, and otherwise it is the stack
reference of step `i`, whether or not step `i+1` arrived with a stack of its own. -/
theorem Walk_stack (opString : Nat → String) (vmt : VmTrace) (hv : validTrace vmt = true) :
    ∃ out, Walk opString vmt = some out ∧
      ∀ off seg, (off, seg) ∈ segments 0 vmt →
        ∀ i s s', seg.Logs.get? i = some s → seg.Logs.get? (i + 1) = some s' →
          ∃ e e', out.get? (off + stepPos seg.Logs i) = some e ∧
            out.get? (off + stepPos seg.Logs (i + 1)) = some e' ∧
            e.payload = s.payload ∧ e'.payload = s'.payload ∧
            (e.fields.ValueOp = "CALL" → e'.fields.ValueStack = none) ∧
            (e.fields.ValueOp ≠ "CALL" → e'.fields.ValueStack = e.fields.ValueStack) := by
  refine ⟨walked opString vmt, (Walk_eq_walked opString vmt hv).1, ?_⟩
  intro off seg hmem i s s' hs hs'
  obtain ⟨hseg, pre, post, hw, hoff⟩ := segments_infix opString off seg vmt 0 hmem hv
  obtain ⟨logs, code⟩ := seg
  simp only [VmTrace.Logs] at hs hs' ⊢
  obtain ⟨e, e', tl, tl', he1, he2, he3, he4, he5⟩ :=
    walkedList_stack opString code logs none i s s' hs hs'
  have hlen : (walked opString (.mk logs code)).length = stepsOfList logs :=
    walked_length opString (.mk logs code)
  have h0 : off = pre.length := by omega
  refine ⟨e, e', ?_, ?_, he1, he2, ?_, ?_⟩
  · apply get?_of_drop_eq_cons
    rw [hw, h0, drop_infix pre _ post _ (by rw [hlen]; exact stepPos_le logs i), walked, he3]
    rfl
  · apply get?_of_drop_eq_cons
    rw [hw, h0, drop_infix pre _ post _ (by rw [hlen]; exact stepPos_le logs (i + 1)), walked,
      he4]
    rfl
  · intro hc; rw [he5, if_pos hc]
  · intro hc; rw [he5, if_neg hc]

/-- Instance of `Walk_stack` on the example trace. -/
theorem Walk_stack_witness :
    validTrace exampleTrace = true ∧
    ∃ out, Walk exampleOpString exampleTrace = some out ∧
      ∀ off seg, (off, seg) ∈ segments 0 exampleTrace →
        ∀ i s s', seg.Logs.get? i = some s → seg.Logs.get? (i + 1) = some s' →
          ∃ e e', out.get? (off + stepPos seg.Logs i) = some e ∧
            out.get? (off + stepPos seg.Logs (i + 1)) = some e' ∧
            e.payload = s.payload ∧ e'.payload = s'.payload ∧
            (e.fields.ValueOp = "CALL" → e'.fields.ValueStack = none) ∧
            (e.fields.ValueOp ≠ "CALL" → e'.fields.ValueStack = e.fields.ValueStack) :=
  ⟨by decide, Walk_stack exampleOpString exampleTrace (by decide)⟩

end TenderlyTrace
